import Mathlib

/-!
Shallow embedding of the tagged-metric parsing and row-expansion engine of
carbon-clickhouse (`src/uploader/tagged.go`, and the second `parseFile`
variant in `src/unnamed/part_000`).

Metric identifiers are Go byte strings; we model them as `List Nat`
(each element one byte).  Records already read from the RowBinary file are
modelled as a list of `Record` (identifier bytes plus the day bucket the
reader exposes via `Days()`); reader open errors and output-sink write
errors are outside the model, so `parseFile` here is total and returns the
in-batch seen-set together with the per-record lists of emitted rows.
-/

namespace CarbonTagged

/-- ASCII bytes of a literal (all inputs used here are ASCII). -/
def strBytes (s : String) : List Nat :=
  s.toList.map Char.toNat

/-- `bytes.IndexByte`-style split at the first occurrence of byte `b`:
returns the part before the first `b` and the part after it
(the whole list and `[]` when `b` is absent). -/
def cutAtByte (b : Nat) : List Nat → List Nat × List Nat
  | [] => ([], [])
  | c :: rest =>
    if c = b then ([], rest)
    else
      let p := cutAtByte b rest
      (c :: p.1, p.2)

/-- Split on every occurrence of byte `b` (like `strings.Cut` iterated,
or `strings.Split`): always returns at least one segment. -/
def splitOnByte (b : Nat) : List Nat → List (List Nat)
  | [] => [[]]
  | c :: rest =>
    let r := splitOnByte b rest
    if c = b then [] :: r
    else (c :: r.headI) :: r.tail

/-- Value of an ASCII hex digit (`unhex` in `net/url`). -/
def hexVal (b : Nat) : Option Nat :=
  if 48 ≤ b ∧ b ≤ 57 then some (b - 48)
  else if 97 ≤ b ∧ b ≤ 102 then some (b - 97 + 10)
  else if 65 ≤ b ∧ b ≤ 70 then some (b - 65 + 10)
  else none

/-- `net/url.unescape`: percent-decoding.  `plusToSpace` selects the
query-component mode (`QueryUnescape`, `'+'` becomes a space); with
`plusToSpace = false` this is `PathUnescape` / fragment unescaping.
Fails (`none`) on a `'%'` not followed by two hex digits. -/
def unescapeWith (plusToSpace : Bool) : List Nat → Option (List Nat)
  | [] => some []
  | 37 :: rest =>
    match rest with
    | a :: b :: rest2 =>
      match hexVal a, hexVal b with
      | some ha, some hb => (unescapeWith plusToSpace rest2).map (fun t => (16 * ha + hb) :: t)
      | _, _ => none
    | _ => none
  | c :: rest =>
    (unescapeWith plusToSpace rest).map
      (fun t => (if plusToSpace ∧ c = 43 then 32 else c) :: t)

/-- `net/url.stringContainsCTLByte`: ASCII control byte. -/
def isCtlByte (b : Nat) : Bool :=
  b < 32 || b = 127

/-- One `&`-separated segment of a query string, decoded as in the loop of
`net/url.ParseQuery`: segments containing `';'` are skipped, empty
segments are skipped, the segment is cut at the first `'='` (value empty
when there is no `'='`), and both halves are query-unescaped; any
unescape failure skips the pair. -/
def decodeSeg (seg : List Nat) : Option (List Nat × List Nat) :=
  if 59 ∈ seg then none
  else if seg = [] then none
  else
    let kv := cutAtByte 61 seg
    match unescapeWith true kv.1, unescapeWith true kv.2 with
    | some k, some v => some (k, v)
    | _, _ => none

/-- The successfully decoded `key=value` pairs of a raw query string, in
occurrence order (the pairs `net/url.ParseQuery` actually inserts;
`URL.Query()` ignores the error return). -/
def validQueryPairs (s : List Nat) : List (List Nat × List Nat) :=
  (splitOnByte 38 s).filterMap decodeSeg

/-- Ordered association-list lookup (models Go map read). -/
def assocGet {β : Type} : List (List Nat × β) → List Nat → Option β
  | [], _ => none
  | e :: rest, k => if e.1 = k then some e.2 else assocGet rest k

/-- Association-list update (models Go map assignment `m[k] = v`). -/
def assocSet {β : Type} : List (List Nat × β) → List Nat → β → List (List Nat × β)
  | [], k, v => [(k, v)]
  | e :: rest, k, v => if e.1 = k then (k, v) :: rest else e :: assocSet rest k v

/-- `m[key] = append(m[key], value)` on a multi-valued map, keeping keys in
first-occurrence order. -/
def addPair : List (List Nat × List (List Nat)) → List Nat → List Nat →
    List (List Nat × List (List Nat))
  | [], k, v => [(k, [v])]
  | e :: rest, k, v =>
    if e.1 = k then (e.1, e.2 ++ [v]) :: rest else e :: addPair rest k v

/-- `net/url.ParseQuery` with the error ignored (as `URL.Query()` does):
a multi-valued map from tag name to its values in occurrence order,
keys in first-occurrence order (a deterministic stand-in for the Go
map, whose iteration order is unspecified). -/
def parseQuery (s : List Nat) : List (List Nat × List (List Nat)) :=
  (validQueryPairs s).foldl (fun m p => addPair m p.1 p.2) []

/-- The result of `urlParse` as used by `parseFile`: the percent-decoded
base path (`URL.Path`) and the parsed query multi-map (`URL.Query()`). -/
structure ParsedURL where
  path : List Nat
  query : List (List Nat × List (List Nat))
deriving DecidableEq

/-- The part of `s` before a `'#'` fragment delimiter (all of `s` when
there is none): what `url.Parse` keeps after `split(rawURL, '#')`. -/
def preFragOf (s : List Nat) : List Nat :=
  if 35 ∈ s then (cutAtByte 35 s).1 else s

/-- Whether the `'#'` fragment of `s` (if any) unescapes successfully
(`setFragment` in `url.Parse`). -/
def fragOkOf (s : List Nat) : Bool :=
  if 35 ∈ s then (unescapeWith false (cutAtByte 35 s).2).isSome else true

/-- The query part of a raw identifier: the bytes after the first `'?'`,
up to a `'#'` fragment delimiter if one is present (this is what
`url.Parse` stores in `RawQuery`). -/
def queryPartOf (raw : List Nat) : List Nat :=
  preFragOf (cutAtByte 63 raw).2

/-- `urlParse` from `tagged.go`.  With a `'?'` present (the only way
`parseFile` calls it): `url.Parse` is applied to the suffix starting at
the `'?'`, which strips a `'#'` fragment (whose escapes must be valid),
rejects control bytes in the query part, and leaves `RawQuery` otherwise
unvalidated; then `url.PathUnescape` decodes the prefix before the `'?'`
into `Path`, failing on bad escapes.  Without a `'?'` (dead code in
`parseFile`, which skips such records first) we model `url.Parse` of a
plain path: fragment split, control-byte check, path unescape, empty
query. -/
def urlParse (raw : List Nat) : Option ParsedURL :=
  if 63 ∈ raw then
    let before := (cutAtByte 63 raw).1
    let after := (cutAtByte 63 raw).2
    if (preFragOf after).any isCtlByte then none
    else if fragOkOf after = false then none
    else
      match unescapeWith false before with
      | none => none
      | some path => some ⟨path, parseQuery (preFragOf after)⟩
  else
    if (preFragOf raw).any isCtlByte then none
    else if fragOkOf raw = false then none
    else
      match unescapeWith false (preFragOf raw) with
      | none => none
      | some path => some ⟨path, []⟩

/-- `byteIsASCIILetter` from `tagged.go`. -/
def byteIsASCIILetter (b : Nat) : Bool :=
  (65 ≤ b && b ≤ 90) || (97 ≤ b && b ≤ 122)

/-- One record handed over by `RowBinary.Reader`: the raw identifier bytes
(`ReadRecord`) and the day bucket (`Days()`). -/
structure Record where
  name : List Nat
  days : Nat
deriving DecidableEq

/-- Decimal ASCII digits of a natural number (`fmt` `%d`). -/
def natDecimal (n : Nat) : List Nat :=
  (Nat.toDigits 10 n).map Char.toNat

/-- The dedup key `fmt.Sprintf("%d:%s", reader.Days(), nameStr)`. -/
def recordKey (r : Record) : List Nat :=
  natDecimal r.days ++ 58 :: r.name

/-- The configuration the `Tagged` uploader is built from: the ordered
`DedicatedTags` list of (tag name, column name) pairs and the
`IgnoredTaggedMetrics` list of base paths. -/
structure TaggedConfig where
  dedicatedTags : List (List Nat × List Nat)
  ignoredTaggedMetrics : List (List Nat)

/-- `u.routeTags`, built in `NewTagged` by inserting each `DedicatedTags`
entry into a map (a later entry with the same tag name overwrites). -/
def TaggedConfig.routeTags (c : TaggedConfig) : List (List Nat × List Nat) :=
  c.dedicatedTags.foldl (fun m e => assocSet m e.1 e.2) []

/-- `u.extraColumns`, built in `NewTagged`: the column names in
configuration order. -/
def TaggedConfig.extraColumns (c : TaggedConfig) : List (List Nat) :=
  c.dedicatedTags.map (fun e => e.2)

/-- `u.ignoredMetrics[p]`: membership in the ignored-metrics set. -/
def TaggedConfig.ignoredHas (c : TaggedConfig) (p : List Nat) : Bool :=
  c.ignoredTaggedMetrics.contains p

/-- One output row of the `tagged.go` variant, in decoded form.  The
serialized column order is `(Date, Name, Path, Tags, Version, extra…)`:
`days` is the 2-byte date, `indexTag` the `Name` column (one
`name=value` string), `rawPath` the `Path` column (the pristine
identifier bytes), `tagCount` the uvarint element count written for the
`Tags` array, `tagBlob` the length-prefixed strings of that array,
`version` the 4-byte version stamp, `extraColumns` the dedicated-column
values in configuration order. -/
structure OutputRow where
  days : Nat
  indexTag : List Nat
  rawPath : List Nat
  tagCount : Nat
  tagBlob : List (List Nat)
  version : Nat
  extraColumns : List (List Nat)
deriving DecidableEq

/-- `"name=value"` formatting (`fmt.Sprintf("%s=%s", name, value)`). -/
def fmtTag (n v : List Nat) : List Nat := n ++ 61 :: v

/-- The accumulator of the per-metric tag loop of `parseFile`
(`tagged.go` variant): the tag blob buffer, the index-tag list, the
written-tag count and the routed extra values. -/
structure TagFold where
  tagsBuf : List (List Nat)
  tagsList : List (List Nat)
  tagsWritten : Nat
  extraValues : List (List Nat × List Nat)

/-- One iteration of `for name, values := range m.Query()` in the
`tagged.go` variant: a routed tag stores its first value into
`extraValues`; a generic tag is appended to the blob, counted, and
(unless the metric is ignored) added to the index-tag list. -/
def stepTag (c : TaggedConfig) (ignoreAllButName : Bool) (st : TagFold)
    (e : List Nat × List (List Nat)) : TagFold :=
  match assocGet c.routeTags e.1 with
  | some column => { st with extraValues := assocSet st.extraValues column e.2.headI }
  | none =>
    let t := fmtTag e.1 e.2.headI
    { tagsBuf := st.tagsBuf ++ [t]
      tagsList := if ignoreAllButName then st.tagsList else st.tagsList ++ [t]
      tagsWritten := st.tagsWritten + 1
      extraValues := st.extraValues }

/-- The rows emitted for one successfully parsed metric by the
`tagged.go` variant: the `__name__=<path>` tag seeds the blob and the
index-tag list, the query tags are folded in, and one row per
index-tag is produced, all sharing the day, raw path, tag count, blob,
version and extra columns. -/
def buildRows (c : TaggedConfig) (r : Record) (m : ParsedURL) (version : Nat) :
    List OutputRow :=
  let nameTag := fmtTag (strBytes "__name__") m.path
  let ignoreAllButName := c.ignoredHas m.path || c.ignoredHas (strBytes "*")
  let st := m.query.foldl (stepTag c ignoreAllButName)
    { tagsBuf := [nameTag], tagsList := [nameTag], tagsWritten := 1, extraValues := [] }
  st.tagsList.map (fun t =>
    { days := r.days, indexTag := t, rawPath := r.name, tagCount := st.tagsWritten
      tagBlob := st.tagsBuf, version := version
      extraColumns := c.extraColumns.map (fun col => (assocGet st.extraValues col).getD []) })

/-- The per-record step of `parseFile` (`tagged.go` variant): skip
records without `'?'`; skip keys in the existence cache or the in-batch
seen-set; skip names longer than 1000 bytes or not starting with an
ASCII letter; skip names `urlParse` rejects; otherwise mark the key and
emit the expanded rows. -/
def processRecord (c : TaggedConfig) (cache : List Nat → Bool) (version : Nat)
    (seen : List (List Nat)) (r : Record) : List (List Nat) × List OutputRow :=
  if 63 ∈ r.name then
    if cache (recordKey r) = true then (seen, [])
    else if recordKey r ∈ seen then (seen, [])
    else if 1000 < r.name.length then (seen, [])
    else if 0 < r.name.length ∧ byteIsASCIILetter r.name.headI = false then (seen, [])
    else
      match urlParse r.name with
      | none => (seen, [])
      | some m => (seen ++ [recordKey r], buildRows c r m version)
  else (seen, [])

/-- The record loop of `parseFile` (`tagged.go` variant) over the records
the reader yields, threading the in-batch seen-set and collecting each
record's emitted rows. -/
def parseFileAux (c : TaggedConfig) (cache : List Nat → Bool) (version : Nat) :
    List (List Nat) → List Record → List (List Nat) × List (List OutputRow)
  | seen, [] => (seen, [])
  | seen, r :: rs =>
    let p := processRecord c cache version seen r
    let q := parseFileAux c cache version p.1 rs
    (q.1, p.2 :: q.2)

/-- `parseFile` of `tagged.go`: processes every record the reader yields
and returns the newly-seen key set together with the rows emitted for
each record (the `version` stamp is the 32-bit-truncated wall clock
captured once before the loop). -/
def parseFile (c : TaggedConfig) (cache : List Nat → Bool) (version : Nat)
    (records : List Record) : List (List Nat) × List (List OutputRow) :=
  parseFileAux c cache version [] records

/-- One output row of the `src/unnamed/part_000` variant: the `Name`
column holds `m.Path` itself and exactly one row is emitted per metric;
the other columns are as in `OutputRow`. -/
structure OutputRow2 where
  days : Nat
  name : List Nat
  rawPath : List Nat
  tagCount : Nat
  tagBlob : List (List Nat)
  version : Nat
  extraColumns : List (List Nat)
deriving DecidableEq

/-- The tag-loop accumulator of the `part_000` variant (no index-tag
list, no ignored-metrics rule). -/
structure TagFold2 where
  tagsBuf : List (List Nat)
  tagsWritten : Nat
  extraValues : List (List Nat × List Nat)

/-- One iteration of `for name, values := range m.Query()` in the
`part_000` variant. -/
def stepTag2 (c : TaggedConfig) (st : TagFold2) (e : List Nat × List (List Nat)) :
    TagFold2 :=
  match assocGet c.routeTags e.1 with
  | some column => { st with extraValues := assocSet st.extraValues column e.2.headI }
  | none =>
    { tagsBuf := st.tagsBuf ++ [fmtTag e.1 e.2.headI]
      tagsWritten := st.tagsWritten + 1
      extraValues := st.extraValues }

/-- The single row emitted for one parsed metric by the `part_000`
variant. -/
def buildRow2 (c : TaggedConfig) (r : Record) (m : ParsedURL) (version : Nat) :
    OutputRow2 :=
  let st := m.query.foldl (stepTag2 c)
    { tagsBuf := [], tagsWritten := 1, extraValues := [] }
  { days := r.days, name := m.path, rawPath := r.name, tagCount := st.tagsWritten
    tagBlob := st.tagsBuf, version := version
    extraColumns := c.extraColumns.map (fun col => (assocGet st.extraValues col).getD []) }

/-- The per-record step of `parseFile` in the `part_000` variant: the
skip chain is identical to the `tagged.go` variant; an admitted record
emits exactly one row. -/
def processRecord2 (c : TaggedConfig) (cache : List Nat → Bool) (version : Nat)
    (seen : List (List Nat)) (r : Record) : List (List Nat) × List OutputRow2 :=
  if 63 ∈ r.name then
    if cache (recordKey r) = true then (seen, [])
    else if recordKey r ∈ seen then (seen, [])
    else if 1000 < r.name.length then (seen, [])
    else if 0 < r.name.length ∧ byteIsASCIILetter r.name.headI = false then (seen, [])
    else
      match urlParse r.name with
      | none => (seen, [])
      | some m => (seen ++ [recordKey r], [buildRow2 c r m version])
  else (seen, [])

/-- The record loop of the `part_000` variant. -/
def parseFileAux2 (c : TaggedConfig) (cache : List Nat → Bool) (version : Nat) :
    List (List Nat) → List Record → List (List Nat) × List (List OutputRow2)
  | seen, [] => (seen, [])
  | seen, r :: rs =>
    let p := processRecord2 c cache version seen r
    let q := parseFileAux2 c cache version p.1 rs
    (q.1, p.2 :: q.2)

/-- `parseFile` of `src/unnamed/part_000`. -/
def parseFile2 (c : TaggedConfig) (cache : List Nat → Bool) (version : Nat)
    (records : List Record) : List (List Nat) × List (List OutputRow2) :=
  parseFileAux2 c cache version [] records

/-! ### Specification-side helpers -/

/-- Generic (non-routed) query entries: the tags that go into the blob
and the tag count. -/
def genEntriesQ (c : TaggedConfig) (q : List (List Nat × List (List Nat))) :
    List (List Nat × List (List Nat)) :=
  q.filter (fun e => (assocGet c.routeTags e.1).isNone)

/-- The formatted `name=value` string of a query entry (first value). -/
def fmtEntry (e : List Nat × List (List Nat)) : List Nat :=
  fmtTag e.1 e.2.headI

/-- Routed query entries turned into (column, first value) pairs, in
query order. -/
def routPairsQ (c : TaggedConfig) (q : List (List Nat × List (List Nat))) :
    List (List Nat × List Nat) :=
  q.filterMap (fun e => (assocGet c.routeTags e.1).map (fun col => (col, e.2.headI)))

/-- The dedup keys of the records that actually emitted rows, in file
order (one entry per record with a non-empty row list). -/
def emittedKeys : List Record → List (List OutputRow) → List (List Nat)
  | r :: rs, o :: os => (if o = [] then [] else [recordKey r]) ++ emittedKeys rs os
  | _, _ => []

/-- All values carried by tag name `k` in the query string of `raw`, in
occurrence order (the first element is the first occurrence's value). -/
def collectQueryValues (raw k : List Nat) : List (List Nat) :=
  (validQueryPairs (queryPartOf raw)).filterMap
    (fun p => if p.1 = k then some p.2 else none)

/-- A record that passes every stage of the skip chain except the two
dedup-set membership tests: it is tagged, not in the persistent cache,
within the length bound, starts with an ASCII letter, and parses. -/
def recordEligible (cache : List Nat → Bool) (r : Record) : Prop :=
  63 ∈ r.name ∧ cache (recordKey r) = false ∧ ¬ 1000 < r.name.length ∧
    ¬ (0 < r.name.length ∧ byteIsASCIILetter r.name.headI = false) ∧
    (urlParse r.name).isSome = true

instance (cache : List Nat → Bool) (r : Record) : Decidable (recordEligible cache r) := by
  unfold recordEligible; infer_instance

/-- The values a list of decoded query pairs carries for key `k`, in
order. -/
def collectPairs (ps : List (List Nat × List Nat)) (k : List Nat) : List (List Nat) :=
  ps.filterMap (fun p => if p.1 = k then some p.2 else none)

/-! ### Association-list lemmas -/

theorem assocGet_eq_some_mem {β : Type} {l : List (List Nat × β)} {k : List Nat} {v : β}
    (h : assocGet l k = some v) : (k, v) ∈ l := by
  induction l with
  | nil => simp [assocGet] at h
  | cons e rest ih =>
    rw [assocGet] at h
    by_cases he : e.1 = k
    · rw [if_pos he] at h
      have : e = (k, v) := by cases e; simp_all
      rw [this]
      exact List.mem_cons_self _ _
    · rw [if_neg he] at h
      exact List.mem_cons_of_mem _ (ih h)

theorem mem_assocGet_nodup {β : Type} {l : List (List Nat × β)} {k : List Nat} {v : β}
    (hnd : (l.map Prod.fst).Nodup) (h : (k, v) ∈ l) : assocGet l k = some v := by
  induction l with
  | nil => simp at h
  | cons e rest ih =>
    simp only [List.map_cons, List.nodup_cons] at hnd
    rcases List.mem_cons.mp h with h1 | h1
    · subst h1; simp [assocGet]
    · rw [assocGet]
      have hne : e.1 ≠ k := by
        intro hk
        exact hnd.1 (hk ▸ List.mem_map_of_mem Prod.fst h1)
      rw [if_neg hne]
      exact ih hnd.2 h1

theorem assocGet_eq_none_iff {β : Type} {l : List (List Nat × β)} {k : List Nat} :
    assocGet l k = none ↔ k ∉ l.map Prod.fst := by
  induction l with
  | nil => simp [assocGet]
  | cons e rest ih =>
    rw [assocGet]
    by_cases he : e.1 = k
    · simp [he]
    · simp [he, ih, Ne.symm he]

theorem assocSet_fresh {β : Type} {l : List (List Nat × β)} {k : List Nat} (v : β)
    (h : k ∉ l.map Prod.fst) : assocSet l k v = l ++ [(k, v)] := by
  induction l with
  | nil => simp [assocSet]
  | cons e rest ih =>
    simp only [List.map_cons, List.mem_cons] at h
    push_neg at h
    rw [assocSet, if_neg (fun hk => h.1 hk.symm)]
    simp [ih h.2]

theorem foldl_assocSet_fresh {β : Type} :
    ∀ (ps : List (List Nat × β)) (m0 : List (List Nat × β)),
      (ps.map Prod.fst).Nodup → (∀ p ∈ ps, p.1 ∉ m0.map Prod.fst) →
      ps.foldl (fun ev p => assocSet ev p.1 p.2) m0 = m0 ++ ps := by
  intro ps
  induction ps with
  | nil => intro m0 _ _; simp
  | cons p rest ih =>
    intro m0 hnd hfresh
    simp only [List.map_cons, List.nodup_cons] at hnd
    rw [List.foldl_cons, assocSet_fresh p.2 (hfresh p (List.mem_cons_self _ _)), ih _ hnd.2]
    · simp
    · intro q hq
      simp only [List.map_append, List.mem_append]
      push_neg
      refine ⟨hfresh q (List.mem_cons_of_mem _ hq), ?_⟩
      simp only [List.map_cons, List.mem_singleton, List.map_nil]
      intro hk
      exact hnd.1 (hk ▸ List.mem_map_of_mem Prod.fst hq)

/-- With distinct configured tag names, the `routeTags` map built in
`NewTagged` is just the `DedicatedTags` association list itself. -/
theorem routeTags_eq_dedicated {c : TaggedConfig}
    (h : (c.dedicatedTags.map Prod.fst).Nodup) : c.routeTags = c.dedicatedTags := by
  have := foldl_assocSet_fresh c.dedicatedTags [] h (by simp)
  simpa [TaggedConfig.routeTags] using this

theorem addPair_keys (m : List (List Nat × List (List Nat))) (k v : List Nat) :
    (addPair m k v).map Prod.fst =
      if k ∈ m.map Prod.fst then m.map Prod.fst else m.map Prod.fst ++ [k] := by
  induction m with
  | nil => simp [addPair]
  | cons e rest ih =>
    rw [addPair]
    by_cases he : e.1 = k
    · simp [he]
    · simp only [List.map_cons, if_neg he, List.mem_cons]
      rw [ih]
      by_cases hk : k ∈ rest.map Prod.fst
      · simp [hk, Ne.symm he]
      · simp [hk, Ne.symm he]

theorem addPair_keys_nodup {m : List (List Nat × List (List Nat))} {k v : List Nat}
    (h : (m.map Prod.fst).Nodup) : ((addPair m k v).map Prod.fst).Nodup := by
  rw [addPair_keys]
  by_cases hk : k ∈ m.map Prod.fst
  · simpa [hk]
  · simp only [hk, if_false]
    exact List.Nodup.append h (List.nodup_singleton k) (by simpa using hk)

theorem assocGet_addPair_self (m : List (List Nat × List (List Nat))) (k v : List Nat) :
    assocGet (addPair m k v) k = some ((assocGet m k).getD [] ++ [v]) := by
  induction m with
  | nil => simp [addPair, assocGet]
  | cons e rest ih =>
    rw [addPair]
    by_cases he : e.1 = k
    · simp [he, assocGet]
    · rw [if_neg he]
      simp only [assocGet, if_neg he]
      rw [ih]

theorem assocGet_addPair_ne (m : List (List Nat × List (List Nat))) {k k' : List Nat}
    (v : List Nat) (h : k' ≠ k) : assocGet (addPair m k v) k' = assocGet m k' := by
  induction m with
  | nil =>
    simp only [addPair, assocGet]
    rw [if_neg (fun hk => h hk.symm)]
  | cons e rest ih =>
    rw [addPair]
    by_cases he : e.1 = k
    · have hne : ¬ e.1 = k' := fun hk => h (hk ▸ he)
      simp [if_pos he, assocGet, if_neg hne, hne]
    · simp only [if_neg he, assocGet]
      rw [ih]

theorem fold_addPair_get :
    ∀ (ps : List (List Nat × List Nat)) (m0 : List (List Nat × List (List Nat)))
      (k : List Nat),
      assocGet (ps.foldl (fun m p => addPair m p.1 p.2) m0) k =
        match assocGet m0 k with
        | some vs => some (vs ++ collectPairs ps k)
        | none => if collectPairs ps k = [] then none else some (collectPairs ps k) := by
  intro ps
  induction ps with
  | nil =>
    intro m0 k
    cases h : assocGet m0 k <;> simp [collectPairs, h]
  | cons p rest ih =>
    intro m0 k
    rw [List.foldl_cons, ih]
    by_cases hp : p.1 = k
    · subst hp
      rw [assocGet_addPair_self]
      have hcoll : collectPairs (p :: rest) p.1 = p.2 :: collectPairs rest p.1 := by
        simp [collectPairs]
      cases h : assocGet m0 p.1 <;>
        simp [h, hcoll, List.append_assoc, List.singleton_append]
    · rw [assocGet_addPair_ne _ _ (fun hk => hp hk.symm)]
      have hcoll : collectPairs (p :: rest) k = collectPairs rest k := by
        simp [collectPairs, hp]
      cases h : assocGet m0 k <;> simp [h, hcoll]

theorem parseQuery_get (s k : List Nat) :
    assocGet (parseQuery s) k =
      if collectPairs (validQueryPairs s) k = [] then none
      else some (collectPairs (validQueryPairs s) k) := by
  rw [parseQuery, fold_addPair_get]
  rfl

theorem parseQuery_keys_nodup (s : List Nat) : ((parseQuery s).map Prod.fst).Nodup := by
  rw [parseQuery]
  generalize validQueryPairs s = ps
  have : ∀ (m0 : List (List Nat × List (List Nat))), (m0.map Prod.fst).Nodup →
      ((ps.foldl (fun m p => addPair m p.1 p.2) m0).map Prod.fst).Nodup := by
    induction ps with
    | nil => intro m0 h; simpa
    | cons p rest ih =>
      intro m0 h
      rw [List.foldl_cons]
      exact ih _ (addPair_keys_nodup h)
  exact this [] (by simp)

/-- Entries of `parseQuery` hold exactly the occurrence-ordered value
lists of their key. -/
theorem parseQuery_mem_collect {s k : List Nat} {vs : List (List Nat)}
    (h : (k, vs) ∈ parseQuery s) : vs = collectPairs (validQueryPairs s) k := by
  have hget := mem_assocGet_nodup (parseQuery_keys_nodup s) h
  rw [parseQuery_get] at hget
  by_cases hc : collectPairs (validQueryPairs s) k = []
  · rw [if_pos hc] at hget; cases hget
  · rw [if_neg hc] at hget
    exact (Option.some.inj hget).symm

/-! ### Characterizing the per-metric tag loop -/

theorem foldTags_spec (c : TaggedConfig) (ig : Bool) :
    ∀ (q : List (List Nat × List (List Nat))) (st : TagFold),
      q.foldl (stepTag c ig) st =
        { tagsBuf := st.tagsBuf ++ (genEntriesQ c q).map fmtEntry
          tagsList := st.tagsList ++ (if ig then [] else (genEntriesQ c q).map fmtEntry)
          tagsWritten := st.tagsWritten + (genEntriesQ c q).length
          extraValues :=
            (routPairsQ c q).foldl (fun ev p => assocSet ev p.1 p.2) st.extraValues } := by
  intro q
  induction q with
  | nil =>
    intro st
    cases ig <;> simp [genEntriesQ, routPairsQ]
  | cons e q ih =>
    intro st
    rw [List.foldl_cons, ih]
    cases h : assocGet c.routeTags e.1 with
    | some column =>
      simp only [stepTag, h, genEntriesQ, routPairsQ, List.filter_cons, List.filterMap_cons,
        Option.isNone_some, Option.map_some']
      simp [genEntriesQ, routPairsQ]
    | none =>
      simp only [stepTag, h, genEntriesQ, routPairsQ, List.filter_cons, List.filterMap_cons,
        Option.isNone_none, Option.map_none']
      cases ig <;>
        simp [genEntriesQ, routPairsQ, fmtEntry, List.append_assoc, Nat.add_assoc,
          Nat.add_comm 1]

/-- Fully evaluated form of `buildRows`. -/
theorem buildRows_eq (c : TaggedConfig) (r : Record) (m : ParsedURL) (v : Nat) :
    buildRows c r m v =
      (fmtTag (strBytes "__name__") m.path ::
        (if c.ignoredHas m.path || c.ignoredHas (strBytes "*") then []
         else (genEntriesQ c m.query).map fmtEntry)).map
        (fun t =>
          { days := r.days, indexTag := t, rawPath := r.name
            tagCount := 1 + (genEntriesQ c m.query).length
            tagBlob := fmtTag (strBytes "__name__") m.path :: (genEntriesQ c m.query).map fmtEntry
            version := v
            extraColumns := c.extraColumns.map (fun col =>
              (assocGet ((routPairsQ c m.query).foldl
                (fun ev p => assocSet ev p.1 p.2) []) col).getD []) }) := by
  rw [buildRows]
  rw [foldTags_spec]
  rfl

theorem buildRows_ne_nil (c : TaggedConfig) (r : Record) (m : ParsedURL) (v : Nat) :
    buildRows c r m v ≠ [] := by
  rw [buildRows_eq]
  simp

/-- The per-record step either skips (no rows, seen-set unchanged) or
admits the record (marks the key, emits `buildRows`); it admits exactly
the eligible records whose key is not yet in the seen-set. -/
theorem processRecord_cases (c : TaggedConfig) (cache : List Nat → Bool) (v : Nat)
    (seen : List (List Nat)) (r : Record) :
    (recordEligible cache r ∧ recordKey r ∉ seen ∧
      ∃ m, urlParse r.name = some m ∧
        processRecord c cache v seen r = (seen ++ [recordKey r], buildRows c r m v)) ∨
    ((¬ recordEligible cache r ∨ recordKey r ∈ seen) ∧
      processRecord c cache v seen r = (seen, [])) := by
  by_cases h1 : 63 ∈ r.name
  case neg =>
    right
    refine ⟨Or.inl (fun he => h1 he.1), ?_⟩
    rw [processRecord, if_neg h1]
  case pos =>
  by_cases h2 : cache (recordKey r) = true
  case pos =>
    right
    refine ⟨Or.inl (fun he => by rw [he.2.1] at h2; cases h2), ?_⟩
    rw [processRecord, if_pos h1, if_pos h2]
  case neg =>
  by_cases h3 : recordKey r ∈ seen
  case pos =>
    right
    refine ⟨Or.inr h3, ?_⟩
    rw [processRecord, if_pos h1, if_neg h2, if_pos h3]
  case neg =>
  by_cases h4 : 1000 < r.name.length
  case pos =>
    right
    refine ⟨Or.inl (fun he => he.2.2.1 h4), ?_⟩
    rw [processRecord, if_pos h1, if_neg h2, if_neg h3, if_pos h4]
  case neg =>
  by_cases h5 : 0 < r.name.length ∧ byteIsASCIILetter r.name.headI = false
  case pos =>
    right
    refine ⟨Or.inl (fun he => he.2.2.2.1 h5), ?_⟩
    rw [processRecord, if_pos h1, if_neg h2, if_neg h3, if_neg h4, if_pos h5]
  case neg =>
  cases hm : urlParse r.name with
  | none =>
    right
    refine ⟨Or.inl (fun he => ?_), ?_⟩
    · have hsome := he.2.2.2.2
      rw [hm] at hsome
      cases hsome
    · rw [processRecord, if_pos h1, if_neg h2, if_neg h3, if_neg h4, if_neg h5, hm]
  | some m =>
    left
    have helig : recordEligible cache r := by
      refine ⟨h1, by simpa using h2, h4, h5, ?_⟩
      rw [hm]
      rfl
    refine ⟨helig, h3, m, rfl, ?_⟩
    rw [processRecord, if_pos h1, if_neg h2, if_neg h3, if_neg h4, if_neg h5, hm]

/-- A record skips (leaves the seen-set untouched and emits nothing)
exactly when it is ineligible or already seen. -/
theorem processRecord_skip (c : TaggedConfig) (cache : List Nat → Bool) (v : Nat)
    (seen : List (List Nat)) (r : Record)
    (h : ¬ recordEligible cache r ∨ recordKey r ∈ seen) :
    processRecord c cache v seen r = (seen, []) := by
  rcases processRecord_cases c cache v seen r with ⟨he, hs, _, _, _⟩ | ⟨_, hp⟩
  · rcases h with h | h
    · exact absurd he h
    · exact absurd h hs
  · exact hp

/-! ### The record loop -/

theorem parseFileAux_cons (c : TaggedConfig) (cache : List Nat → Bool) (v : Nat)
    (seen : List (List Nat)) (r : Record) (rs : List Record) :
    parseFileAux c cache v seen (r :: rs) =
      ((parseFileAux c cache v (processRecord c cache v seen r).1 rs).1,
        (processRecord c cache v seen r).2 ::
          (parseFileAux c cache v (processRecord c cache v seen r).1 rs).2) := rfl

theorem parseFileAux2_cons (c : TaggedConfig) (cache : List Nat → Bool) (v : Nat)
    (seen : List (List Nat)) (r : Record) (rs : List Record) :
    parseFileAux2 c cache v seen (r :: rs) =
      ((parseFileAux2 c cache v (processRecord2 c cache v seen r).1 rs).1,
        (processRecord2 c cache v seen r).2 ::
          (parseFileAux2 c cache v (processRecord2 c cache v seen r).1 rs).2) := rfl

/-- Membership in the seen-set the record loop returns: the keys of the
eligible records, merged into whatever was already seen. -/
theorem parseFileAux_fst_mem (c : TaggedConfig) (cache : List Nat → Bool) (v : Nat) :
    ∀ (rs : List Record) (seen : List (List Nat)) (k : List Nat),
      k ∈ (parseFileAux c cache v seen rs).1 ↔
        k ∈ seen ∨ ∃ r ∈ rs, recordEligible cache r ∧ recordKey r = k := by
  intro rs
  induction rs with
  | nil => intro seen k; simp [parseFileAux]
  | cons r rs ih =>
    intro seen k
    rw [parseFileAux_cons]
    rcases processRecord_cases c cache v seen r with ⟨he, _, _, _, hp⟩ | ⟨hcase, hp⟩
    · rw [hp]
      simp only [ih, List.mem_append, List.mem_singleton, List.mem_cons,
        List.not_mem_nil, or_false]
      constructor
      · rintro ((h | h) | ⟨r', hr', h⟩)
        · exact Or.inl h
        · exact Or.inr ⟨r, Or.inl rfl, he, h.symm⟩
        · exact Or.inr ⟨r', Or.inr hr', h⟩
      · rintro (h | ⟨r', hr' | hr', h⟩)
        · exact Or.inl (Or.inl h)
        · exact Or.inl (Or.inr (hr' ▸ h.2.symm))
        · exact Or.inr ⟨r', hr', h⟩
    · rw [hp]
      simp only [ih, List.mem_cons]
      constructor
      · rintro (h | ⟨r', hr', h⟩)
        · exact Or.inl h
        · exact Or.inr ⟨r', Or.inr hr', h⟩
      · rintro (h | ⟨r', hr' | hr', h⟩)
        · exact Or.inl h
        · subst hr'
          rcases hcase with hc | hc
          · exact absurd h.1 hc
          · exact Or.inl (h.2 ▸ hc)
        · exact Or.inr ⟨r', hr', h⟩

/-- The emitted dedup keys are pairwise distinct, absent from the
persistent cache, and absent from the incoming seen-set. -/
theorem parseFileAux_emitted (c : TaggedConfig) (cache : List Nat → Bool) (v : Nat) :
    ∀ (rs : List Record) (seen : List (List Nat)),
      (emittedKeys rs (parseFileAux c cache v seen rs).2).Nodup ∧
        ∀ k ∈ emittedKeys rs (parseFileAux c cache v seen rs).2,
          cache k = false ∧ k ∉ seen := by
  intro rs
  induction rs with
  | nil => intro seen; simp [parseFileAux, emittedKeys]
  | cons r rs ih =>
    intro seen
    rw [parseFileAux_cons]
    rcases processRecord_cases c cache v seen r with ⟨he, hs, m, _, hp⟩ | ⟨_, hp⟩
    · rw [hp]
      have hrows : buildRows c r m v ≠ [] := buildRows_ne_nil c r m v
      have hkeys : emittedKeys (r :: rs)
          (buildRows c r m v :: (parseFileAux c cache v (seen ++ [recordKey r]) rs).2) =
          recordKey r :: emittedKeys rs (parseFileAux c cache v (seen ++ [recordKey r]) rs).2 := by
        rw [emittedKeys, if_neg hrows]
        rfl
      rw [hkeys]
      obtain ⟨ihn, ihm⟩ := ih (seen ++ [recordKey r])
      constructor
      · refine List.nodup_cons.mpr ⟨?_, ihn⟩
        intro hmem
        exact (ihm _ hmem).2 (List.mem_append_right _ (List.mem_singleton.mpr rfl))
      · intro k hk
        rcases List.mem_cons.mp hk with hk | hk
        · subst hk
          exact ⟨he.2.1, hs⟩
        · obtain ⟨hc, hns⟩ := ihm _ hk
          exact ⟨hc, fun hin => hns (List.mem_append_left _ hin)⟩
    · rw [hp]
      have hkeys : emittedKeys (r :: rs)
          ([] :: (parseFileAux c cache v seen rs).2) =
          emittedKeys rs (parseFileAux c cache v seen rs).2 := by
        rw [emittedKeys, if_pos rfl]
        rfl
      rw [hkeys]
      exact ih seen

/-- The two `parseFile` variants have identical skip chains, so the
seen-set update of one record is the same in both. -/
theorem processRecord_fst_eq (c c2 : TaggedConfig) (cache : List Nat → Bool)
    (v v2 : Nat) (seen : List (List Nat)) (r : Record) :
    (processRecord c cache v seen r).1 = (processRecord2 c2 cache v2 seen r).1 := by
  by_cases h1 : 63 ∈ r.name
  · by_cases h2 : cache (recordKey r) = true
    · simp [processRecord, processRecord2, h1, h2]
    · by_cases h3 : recordKey r ∈ seen
      · simp [processRecord, processRecord2, h1, h2, h3]
      · by_cases h4 : 1000 < r.name.length
        · simp [processRecord, processRecord2, h1, h2, h3, h4]
        · by_cases h5 : 0 < r.name.length ∧ byteIsASCIILetter r.name.headI = false
          · simp [processRecord, processRecord2, h1, h2, h3, h4, h5]
          · cases hm : urlParse r.name <;>
              simp [processRecord, processRecord2, h1, h2, h3, h4, h5, hm]
  · simp [processRecord, processRecord2, h1]

theorem parseFileAux_fst_eq (c c2 : TaggedConfig) (cache : List Nat → Bool)
    (v v2 : Nat) :
    ∀ (rs : List Record) (seen : List (List Nat)),
      (parseFileAux c cache v seen rs).1 = (parseFileAux2 c2 cache v2 seen rs).1 := by
  intro rs
  induction rs with
  | nil => intro seen; rfl
  | cons r rs ih =>
    intro seen
    rw [parseFileAux_cons, parseFileAux2_cons]
    simp only
    rw [processRecord_fst_eq c c2 cache v v2 seen r]
    exact ih _

/-! ### Inverting `urlParse` and routing lemmas -/

/-- When the identifier contains a `'?'`, a successful `urlParse` parses
exactly the query part after it. -/
theorem urlParse_some_query {raw : List Nat} {m : ParsedURL} (h63 : 63 ∈ raw)
    (h : urlParse raw = some m) : m.query = parseQuery (queryPartOf raw) := by
  rw [urlParse, if_pos h63] at h
  rw [queryPartOf]
  simp only at h
  split at h
  · cases h
  · split at h
    · cases h
    · split at h
      · cases h
      · cases h
        rfl

/-- A successful `urlParse` of a `'?'`-carrying identifier decodes the
prefix before the `'?'` into the base path via `PathUnescape`. -/
theorem urlParse_some_path {raw : List Nat} {m : ParsedURL} (h63 : 63 ∈ raw)
    (h : urlParse raw = some m) :
    unescapeWith false (cutAtByte 63 raw).1 = some m.path := by
  rw [urlParse, if_pos h63] at h
  simp only at h
  split at h
  · cases h
  · split at h
    · cases h
    · split at h
      · cases h
      · cases h
        next hpath => rw [hpath]

theorem urlParse_query_nodup {raw : List Nat} {m : ParsedURL}
    (h : urlParse raw = some m) : (m.query.map Prod.fst).Nodup := by
  by_cases h63 : 63 ∈ raw
  · rw [urlParse_some_query h63 h]
    exact parseQuery_keys_nodup _
  · rw [urlParse, if_neg h63] at h
    split at h
    · cases h
    · split at h
      · cases h
      · split at h
        · cases h
        · cases h
          simp

/-- With distinct dedicated tag names and distinct dedicated columns, two
tag names routed to the same column coincide. -/
theorem ded_col_inj {c : TaggedConfig} (hnames : (c.dedicatedTags.map Prod.fst).Nodup)
    (hcols : (c.dedicatedTags.map Prod.snd).Nodup) {n1 n2 col : List Nat}
    (g1 : assocGet c.routeTags n1 = some col) (g2 : assocGet c.routeTags n2 = some col) :
    n1 = n2 := by
  rw [routeTags_eq_dedicated hnames] at g1 g2
  have m1 := assocGet_eq_some_mem g1
  have m2 := assocGet_eq_some_mem g2
  have := List.inj_on_of_nodup_map hcols m1 m2 rfl
  exact congrArg Prod.fst this

theorem mem_routPairs_keys {c : TaggedConfig} {q : List (List Nat × List (List Nat))}
    {col : List Nat} :
    col ∈ (routPairsQ c q).map Prod.fst ↔
      ∃ e ∈ q, assocGet c.routeTags e.1 = some col := by
  simp only [routPairsQ, List.mem_map, List.mem_filterMap, Option.map_eq_some']
  constructor
  · rintro ⟨p, ⟨e, he, c0, hc0, hp⟩, hcol⟩
    subst hp
    exact ⟨e, he, hc0.trans (congrArg some hcol)⟩
  · rintro ⟨e, he, hc⟩
    exact ⟨(col, e.2.headI), ⟨e, he, col, hc, rfl⟩, rfl⟩

theorem routPairs_keys_nodup {c : TaggedConfig} {q : List (List Nat × List (List Nat))}
    (hq : (q.map Prod.fst).Nodup)
    (hinj : ∀ n1 n2 col, assocGet c.routeTags n1 = some col →
      assocGet c.routeTags n2 = some col → n1 = n2) :
    ((routPairsQ c q).map Prod.fst).Nodup := by
  induction q with
  | nil => simp [routPairsQ]
  | cons e q ih =>
    simp only [List.map_cons, List.nodup_cons] at hq
    rw [routPairsQ, List.filterMap_cons]
    cases hg : assocGet c.routeTags e.1 with
    | none => exact ih hq.2
    | some col =>
      simp only [Option.map_some', List.map_cons, List.nodup_cons]
      refine ⟨?_, ih hq.2⟩
      intro hmem
      obtain ⟨e', he', hcol⟩ := mem_routPairs_keys.mp hmem
      have : e'.1 = e.1 := hinj _ _ _ hcol hg
      exact hq.1 (this ▸ List.mem_map_of_mem Prod.fst he')

/-- The final `extraValues` lookup for a configured (tag name, column)
pair: the tag's first value if the metric carries it, `[]` otherwise. -/
theorem extras_final {c : TaggedConfig} {q : List (List Nat × List (List Nat))}
    (hq : (q.map Prod.fst).Nodup)
    (hnames : (c.dedicatedTags.map Prod.fst).Nodup)
    (hcols : (c.dedicatedTags.map Prod.snd).Nodup)
    {tn col : List Nat} (hd : (tn, col) ∈ c.dedicatedTags) :
    (assocGet ((routPairsQ c q).foldl (fun ev p => assocSet ev p.1 p.2) []) col).getD [] =
      (match assocGet q tn with
        | some vs => vs.headI
        | none => []) := by
  have hinj : ∀ n1 n2 col0, assocGet c.routeTags n1 = some col0 →
      assocGet c.routeTags n2 = some col0 → n1 = n2 := fun _ _ _ g1 g2 =>
    ded_col_inj hnames hcols g1 g2
  have hnd := routPairs_keys_nodup (c := c) hq hinj
  have hfold : (routPairsQ c q).foldl (fun ev p => assocSet ev p.1 p.2) [] =
      routPairsQ c q := by
    simpa using foldl_assocSet_fresh (routPairsQ c q) [] hnd (by simp)
  rw [hfold]
  have hroute : assocGet c.routeTags tn = some col := by
    rw [routeTags_eq_dedicated hnames]
    exact mem_assocGet_nodup hnames hd
  cases hq2 : assocGet q tn with
  | some vs =>
    have hmemq := assocGet_eq_some_mem hq2
    have hmemr : (col, vs.headI) ∈ routPairsQ c q := by
      rw [routPairsQ, List.mem_filterMap]
      exact ⟨(tn, vs), hmemq, by rw [hroute]; rfl⟩
    rw [mem_assocGet_nodup hnd hmemr]
    rfl
  | none =>
    have hnone : assocGet (routPairsQ c q) col = none := by
      rw [assocGet_eq_none_iff]
      intro hmem
      obtain ⟨e', he', hcol⟩ := mem_routPairs_keys.mp hmem
      have he1 : e'.1 = tn := hinj _ _ _ hcol hroute
      rw [assocGet_eq_none_iff] at hq2
      exact hq2 (he1 ▸ List.mem_map_of_mem Prod.fst he')
    rw [hnone]
    rfl

/-- Admitted records: all skip conditions refuted and the parse
successful. -/
theorem processRecord_accepts (c : TaggedConfig) (cache : List Nat → Bool) (version : Nat)
    (seen : List (List Nat)) (r : Record) (m : ParsedURL)
    (h63 : 63 ∈ r.name) (hc : cache (recordKey r) = false) (hs : recordKey r ∉ seen)
    (hlen : ¬ 1000 < r.name.length)
    (hletter : ¬ (0 < r.name.length ∧ byteIsASCIILetter r.name.headI = false))
    (hm : urlParse r.name = some m) :
    processRecord c cache version seen r =
      (seen ++ [recordKey r], buildRows c r m version) := by
  rw [processRecord, if_pos h63, if_neg (by simp [hc]), if_neg hs, if_neg hlen,
    if_neg hletter, hm]

/-! ### Claim theorems -/

/-- C1: in every `parseFile` call, a record whose dedup key is reported
present by the persistent existence cache, or was already added to the
in-batch seen-set earlier in the call, emits no output row: the keys of
row-emitting records are pairwise distinct (so each (day, identifier)
pair produces output at most once per run) and none of them is in the
cache. -/
theorem dedup_emits_at_most_once (c : TaggedConfig) (cache : List Nat → Bool)
    (version : Nat) (records : List Record) :
    (emittedKeys records (parseFile c cache version records).2).Nodup ∧
      ∀ k ∈ emittedKeys records (parseFile c cache version records).2,
        cache k = false := by
  obtain ⟨hn, hm⟩ := parseFileAux_emitted c cache version records []
  exact ⟨hn, fun k hk => (hm k hk).1⟩

/-- C8: a tagged identifier longer than 1000 bytes, or whose first byte
is not an ASCII letter, produces zero output rows and leaves the
seen-set untouched; the loop simply moves on to the remaining records
(no error path exists for this condition). -/
theorem malformed_skipped (c : TaggedConfig) (cache : List Nat → Bool) (version : Nat)
    (seen : List (List Nat)) (r : Record) (rs : List Record)
    (h : 1000 < r.name.length ∨ byteIsASCIILetter r.name.headI = false) :
    processRecord c cache version seen r = (seen, []) ∧
      parseFileAux c cache version seen (r :: rs) =
        ((parseFileAux c cache version seen rs).1,
          [] :: (parseFileAux c cache version seen rs).2) := by
  have hskip : processRecord c cache version seen r = (seen, []) := by
    apply processRecord_skip
    left
    intro he
    rcases h with h | h
    · exact he.2.2.1 h
    · have hlen : 0 < r.name.length :=
        List.length_pos.mpr (List.ne_nil_of_mem he.1)
      exact he.2.2.2.1 ⟨hlen, h⟩
  exact ⟨hskip, by rw [parseFileAux_cons, hskip]⟩

theorem malformed_skipped_witness :
    byteIsASCIILetter (strBytes "9x?a=1").headI = false ∧
      (processRecord ⟨[], []⟩ (fun _ => false) 0 [] ⟨strBytes "9x?a=1", 0⟩ = ([], []) ∧
        parseFileAux ⟨[], []⟩ (fun _ => false) 0 [] [⟨strBytes "9x?a=1", 0⟩] = ([], [[]])) :=
  ⟨by decide,
    malformed_skipped ⟨[], []⟩ (fun _ => false) 0 [] ⟨strBytes "9x?a=1", 0⟩ []
      (Or.inr (by decide))⟩

/-- C10: a record whose identifier contains no `'?'` leaves both the
output and the seen-set unchanged, whatever its length, first byte or
percent-encoding: no rows are emitted and no dedup key is added. -/
theorem untagged_no_effect (c : TaggedConfig) (cache : List Nat → Bool) (version : Nat)
    (seen : List (List Nat)) (r : Record) (rs : List Record) (h : 63 ∉ r.name) :
    processRecord c cache version seen r = (seen, []) ∧
      parseFileAux c cache version seen (r :: rs) =
        ((parseFileAux c cache version seen rs).1,
          [] :: (parseFileAux c cache version seen rs).2) := by
  have hskip : processRecord c cache version seen r = (seen, []) := by
    rw [processRecord, if_neg h]
  exact ⟨hskip, by rw [parseFileAux_cons, hskip]⟩

theorem untagged_no_effect_witness :
    (63 ∉ strBytes "9plain.metric%zz") ∧
      (processRecord ⟨[], []⟩ (fun _ => false) 0 [] ⟨strBytes "9plain.metric%zz", 5⟩ =
          ([], []) ∧
        parseFileAux ⟨[], []⟩ (fun _ => false) 0 [] [⟨strBytes "9plain.metric%zz", 5⟩] =
          ([], [[]])) :=
  ⟨by decide,
    untagged_no_effect ⟨[], []⟩ (fun _ => false) 0 [] ⟨strBytes "9plain.metric%zz", 5⟩ []
      (by decide)⟩

/-- C6 (counterexample): the record `a%zz?x=1` contains `'?'`, is short,
starts with a letter, and is in neither dedup set, yet because
`urlParse` fails on its path escape the returned map does not contain
its key — refuting the claim that the dedup gate marks the key before
tag parsing. -/
theorem dedup_mark_requires_parse_cex :
    (63 ∈ strBytes "a%zz?x=1") ∧ (strBytes "a%zz?x=1").length ≤ 1000 ∧
      byteIsASCIILetter (strBytes "a%zz?x=1").headI = true ∧
      urlParse (strBytes "a%zz?x=1") = none ∧
      (parseFile ⟨[], []⟩ (fun _ => false) 0 [⟨strBytes "a%zz?x=1", 0⟩]).1 = [] := by
  decide

/-- C6 (amended): for a tagged record passing the cache, seen-set,
length and leading-letter checks, the dedup gate marks the key in the
in-batch seen-set exactly when the subsequent tag-parsing step
succeeds; when `urlParse` fails, the key is not added. -/
theorem dedup_mark_after_parse (c : TaggedConfig) (cache : List Nat → Bool)
    (version : Nat) (seen : List (List Nat)) (r : Record)
    (h63 : 63 ∈ r.name) (hc : cache (recordKey r) = false) (hs : recordKey r ∉ seen)
    (hlen : ¬ 1000 < r.name.length)
    (hletter : ¬ (0 < r.name.length ∧ byteIsASCIILetter r.name.headI = false)) :
    (processRecord c cache version seen r).1 =
      if (urlParse r.name).isSome then seen ++ [recordKey r] else seen := by
  cases hm : urlParse r.name with
  | some m =>
    rw [processRecord_accepts c cache version seen r m h63 hc hs hlen hletter hm]
    simp
  | none =>
    have hskip : processRecord c cache version seen r = (seen, []) := by
      apply processRecord_skip
      left
      intro he
      have hsome := he.2.2.2.2
      rw [hm] at hsome
      cases hsome
    rw [hskip, if_neg (by simp)]

theorem dedup_mark_after_parse_witness :
    ((fun _ => false : List Nat → Bool) (recordKey ⟨strBytes "a?x=1", 0⟩) = false) ∧
      (processRecord ⟨[], []⟩ (fun _ => false) 0 [] ⟨strBytes "a?x=1", 0⟩).1 =
        (if (urlParse (strBytes "a?x=1")).isSome
         then [] ++ [recordKey ⟨strBytes "a?x=1", 0⟩] else []) :=
  ⟨rfl,
    dedup_mark_after_parse ⟨[], []⟩ (fun _ => false) 0 [] ⟨strBytes "a?x=1", 0⟩
      (by decide) rfl (by decide) (by decide) (by decide)⟩

/-- C9: for the same records, cache and configurations, the two
`parseFile` variants return the same newly-seen key list, and that list
holds exactly the keys of the records that contain `'?'`, pass the
cache check and the length/leading-letter filter, and parse
successfully. -/
theorem variants_same_seen_keys (c c2 : TaggedConfig) (cache : List Nat → Bool)
    (v v2 : Nat) (records : List Record) :
    (parseFile c cache v records).1 = (parseFile2 c2 cache v2 records).1 ∧
      ∀ k, k ∈ (parseFile c cache v records).1 ↔
        ∃ r ∈ records, recordEligible cache r ∧ recordKey r = k := by
  refine ⟨parseFileAux_fst_eq c c2 cache v v2 records [], fun k => ?_⟩
  rw [parseFile, parseFileAux_fst_mem]
  simp

/-- C2: a parsed metric whose base path is ignored (or with `*`
configured) emits exactly one row, the `__name__` row, and that row's
tag blob still contains every generic tag's `name=value` string. -/
theorem ignored_metric_single_row (c : TaggedConfig) (cache : List Nat → Bool)
    (version : Nat) (seen : List (List Nat)) (r : Record) (m : ParsedURL)
    (h63 : 63 ∈ r.name) (hc : cache (recordKey r) = false) (hs : recordKey r ∉ seen)
    (hlen : ¬ 1000 < r.name.length)
    (hletter : ¬ (0 < r.name.length ∧ byteIsASCIILetter r.name.headI = false))
    (hm : urlParse r.name = some m)
    (hig : c.ignoredHas m.path = true ∨ c.ignoredHas (strBytes "*") = true) :
    (processRecord c cache version seen r).2.length = 1 ∧
      ∀ row ∈ (processRecord c cache version seen r).2,
        row.indexTag = fmtTag (strBytes "__name__") m.path ∧
        ∀ e ∈ genEntriesQ c m.query, fmtTag e.1 e.2.headI ∈ row.tagBlob := by
  rw [processRecord_accepts c cache version seen r m h63 hc hs hlen hletter hm]
  simp only
  rw [buildRows_eq]
  have higb : (c.ignoredHas m.path || c.ignoredHas (strBytes "*")) = true := by
    rcases hig with h | h <;> simp [h]
  rw [if_pos higb]
  constructor
  · rfl
  · intro row hrow
    simp only [List.map_cons, List.map_nil, List.mem_singleton] at hrow
    subst hrow
    refine ⟨rfl, ?_⟩
    intro e he
    exact List.mem_cons_of_mem _ (List.mem_map_of_mem fmtEntry he)

theorem ignored_metric_single_row_witness :
    (⟨[], [strBytes "app.requests"]⟩ : TaggedConfig).ignoredHas
        (strBytes "app.requests") = true ∧
      ((processRecord ⟨[], [strBytes "app.requests"]⟩ (fun _ => false) 0 []
          ⟨strBytes "app.requests?env=prod&region=us", 2⟩).2.length = 1 ∧
        ∀ row ∈ (processRecord ⟨[], [strBytes "app.requests"]⟩ (fun _ => false) 0 []
            ⟨strBytes "app.requests?env=prod&region=us", 2⟩).2,
          row.indexTag = fmtTag (strBytes "__name__") (strBytes "app.requests") ∧
          ∀ e ∈ genEntriesQ ⟨[], [strBytes "app.requests"]⟩
              [(strBytes "env", [strBytes "prod"]), (strBytes "region", [strBytes "us"])],
            fmtTag e.1 e.2.headI ∈ row.tagBlob) :=
  ⟨by decide,
    ignored_metric_single_row ⟨[], [strBytes "app.requests"]⟩ (fun _ => false) 0 []
      ⟨strBytes "app.requests?env=prod&region=us", 2⟩
      ⟨strBytes "app.requests",
        [(strBytes "env", [strBytes "prod"]), (strBytes "region", [strBytes "us"])]⟩
      (by decide) rfl (by decide) (by decide) (by decide) (by decide)
      (Or.inl (by decide))⟩

/-- C3: with distinct dedicated tag names and distinct dedicated
columns, a routed tag's `name=value` string never enters the tag blob,
never counts toward the tag count, and never yields an index row; every
emitted row's extra columns hold, per configured column in
configuration order, the routed tag's first value or the empty string
when absent. -/
theorem routed_tags_only_extras (c : TaggedConfig) (cache : List Nat → Bool)
    (version : Nat) (seen : List (List Nat)) (r : Record) (m : ParsedURL)
    (h63 : 63 ∈ r.name) (hc : cache (recordKey r) = false) (hs : recordKey r ∉ seen)
    (hlen : ¬ 1000 < r.name.length)
    (hletter : ¬ (0 < r.name.length ∧ byteIsASCIILetter r.name.headI = false))
    (hm : urlParse r.name = some m)
    (hnames : (c.dedicatedTags.map Prod.fst).Nodup)
    (hcols : (c.dedicatedTags.map Prod.snd).Nodup) :
    ∀ row ∈ (processRecord c cache version seen r).2,
      row.tagBlob = fmtTag (strBytes "__name__") m.path ::
        (genEntriesQ c m.query).map fmtEntry ∧
      row.tagCount = 1 + (genEntriesQ c m.query).length ∧
      row.indexTag ∈ fmtTag (strBytes "__name__") m.path ::
        (genEntriesQ c m.query).map fmtEntry ∧
      row.extraColumns = c.dedicatedTags.map (fun d =>
        match assocGet m.query d.1 with
        | some vs => vs.headI
        | none => []) := by
  rw [processRecord_accepts c cache version seen r m h63 hc hs hlen hletter hm]
  simp only
  rw [buildRows_eq]
  intro row hrow
  obtain ⟨t, ht, rfl⟩ := List.mem_map.mp hrow
  refine ⟨rfl, rfl, ?_, ?_⟩
  · rcases List.mem_cons.mp ht with h | h
    · exact h ▸ List.mem_cons_self _ _
    · by_cases hig : (c.ignoredHas m.path || c.ignoredHas (strBytes "*")) = true
      · rw [if_pos hig] at h
        cases h
      · rw [if_neg hig] at h
        exact List.mem_cons_of_mem _ h
  · show c.extraColumns.map _ = _
    rw [TaggedConfig.extraColumns, List.map_map]
    refine List.map_congr_left ?_
    intro d hd
    have hd2 : (d.1, d.2) ∈ c.dedicatedTags := by
      rw [Prod.mk.eta]
      exact hd
    exact extras_final (urlParse_query_nodup hm) hnames hcols hd2

theorem routed_tags_only_extras_witness :
    ((⟨[(strBytes "env", strBytes "Env")], []⟩ : TaggedConfig).dedicatedTags.map
        Prod.fst).Nodup ∧
      ∀ row ∈ (processRecord ⟨[(strBytes "env", strBytes "Env")], []⟩ (fun _ => false) 0 []
          ⟨strBytes "app.requests?env=prod&region=us", 2⟩).2,
        row.tagBlob = fmtTag (strBytes "__name__") (strBytes "app.requests") ::
          (genEntriesQ ⟨[(strBytes "env", strBytes "Env")], []⟩
            [(strBytes "env", [strBytes "prod"]),
              (strBytes "region", [strBytes "us"])]).map fmtEntry ∧
        row.tagCount = 1 + (genEntriesQ ⟨[(strBytes "env", strBytes "Env")], []⟩
          [(strBytes "env", [strBytes "prod"]), (strBytes "region", [strBytes "us"])]).length ∧
        row.indexTag ∈ fmtTag (strBytes "__name__") (strBytes "app.requests") ::
          (genEntriesQ ⟨[(strBytes "env", strBytes "Env")], []⟩
            [(strBytes "env", [strBytes "prod"]),
              (strBytes "region", [strBytes "us"])]).map fmtEntry ∧
        row.extraColumns = [(strBytes "env", strBytes "Env")].map (fun d =>
          match assocGet [(strBytes "env", [strBytes "prod"]),
              (strBytes "region", [strBytes "us"])] d.1 with
          | some vs => vs.headI
          | none => []) :=
  ⟨by decide,
    routed_tags_only_extras ⟨[(strBytes "env", strBytes "Env")], []⟩ (fun _ => false) 0 []
      ⟨strBytes "app.requests?env=prod&region=us", 2⟩
      ⟨strBytes "app.requests",
        [(strBytes "env", [strBytes "prod"]), (strBytes "region", [strBytes "us"])]⟩
      (by decide) rfl (by decide) (by decide) (by decide) (by decide)
      (by decide) (by decide)⟩

/-- C4: every output row of a parsed metric carries
`TagCount = 1 + number of distinct generic (non-routed) tag names`
(the generic entries have pairwise-distinct names), a value independent
of the ignored-metrics rule. -/
theorem tag_count_counts_generic (c : TaggedConfig) (cache : List Nat → Bool)
    (version : Nat) (seen : List (List Nat)) (r : Record) (m : ParsedURL)
    (h63 : 63 ∈ r.name) (hc : cache (recordKey r) = false) (hs : recordKey r ∉ seen)
    (hlen : ¬ 1000 < r.name.length)
    (hletter : ¬ (0 < r.name.length ∧ byteIsASCIILetter r.name.headI = false))
    (hm : urlParse r.name = some m) :
    ((genEntriesQ c m.query).map Prod.fst).Nodup ∧
      ∀ row ∈ (processRecord c cache version seen r).2,
        row.tagCount = 1 + (genEntriesQ c m.query).length := by
  constructor
  · exact (urlParse_query_nodup hm).sublist
      (List.Sublist.map Prod.fst (List.filter_sublist m.query))
  · rw [processRecord_accepts c cache version seen r m h63 hc hs hlen hletter hm]
    simp only
    rw [buildRows_eq]
    intro row hrow
    obtain ⟨t, ht, rfl⟩ := List.mem_map.mp hrow
    rfl

theorem tag_count_counts_generic_witness :
    urlParse (strBytes "app.requests?env=prod&region=us") =
        some ⟨strBytes "app.requests",
          [(strBytes "env", [strBytes "prod"]), (strBytes "region", [strBytes "us"])]⟩ ∧
      (((genEntriesQ ⟨[], []⟩ [(strBytes "env", [strBytes "prod"]),
          (strBytes "region", [strBytes "us"])]).map Prod.fst).Nodup ∧
        ∀ row ∈ (processRecord ⟨[], []⟩ (fun _ => false) 0 []
            ⟨strBytes "app.requests?env=prod&region=us", 2⟩).2,
          row.tagCount = 1 + (genEntriesQ ⟨[], []⟩
            [(strBytes "env", [strBytes "prod"]),
              (strBytes "region", [strBytes "us"])]).length) :=
  ⟨by decide,
    tag_count_counts_generic ⟨[], []⟩ (fun _ => false) 0 []
      ⟨strBytes "app.requests?env=prod&region=us", 2⟩
      ⟨strBytes "app.requests",
        [(strBytes "env", [strBytes "prod"]), (strBytes "region", [strBytes "us"])]⟩
      (by decide) rfl (by decide) (by decide) (by decide) (by decide)⟩

/-- C5: a valid tagged identifier that passes the dedup gate, the
malformed-input filter and tag parsing emits at least one row, one of
which carries `__name__=<percent-decoded base path>` as its index
tag. -/
theorem name_index_row (c : TaggedConfig) (cache : List Nat → Bool)
    (version : Nat) (seen : List (List Nat)) (r : Record) (m : ParsedURL)
    (h63 : 63 ∈ r.name) (hc : cache (recordKey r) = false) (hs : recordKey r ∉ seen)
    (hlen : ¬ 1000 < r.name.length)
    (hletter : ¬ (0 < r.name.length ∧ byteIsASCIILetter r.name.headI = false))
    (hm : urlParse r.name = some m) :
    (processRecord c cache version seen r).2 ≠ [] ∧
      ∃ row ∈ (processRecord c cache version seen r).2,
        row.indexTag = fmtTag (strBytes "__name__") m.path := by
  rw [processRecord_accepts c cache version seen r m h63 hc hs hlen hletter hm]
  simp only
  refine ⟨buildRows_ne_nil c r m version, ?_⟩
  rw [buildRows_eq]
  exact ⟨_, List.mem_map_of_mem _ (List.mem_cons_self _ _), rfl⟩

theorem name_index_row_witness :
    urlParse (strBytes "cpu.load?a=1&b=2") =
        some ⟨strBytes "cpu.load",
          [(strBytes "a", [strBytes "1"]), (strBytes "b", [strBytes "2"])]⟩ ∧
      ((processRecord ⟨[], []⟩ (fun _ => false) 7 [] ⟨strBytes "cpu.load?a=1&b=2", 3⟩).2 ≠
          [] ∧
        ∃ row ∈ (processRecord ⟨[], []⟩ (fun _ => false) 7 []
            ⟨strBytes "cpu.load?a=1&b=2", 3⟩).2,
          row.indexTag = fmtTag (strBytes "__name__") (strBytes "cpu.load")) :=
  ⟨by decide,
    name_index_row ⟨[], []⟩ (fun _ => false) 7 [] ⟨strBytes "cpu.load?a=1&b=2", 3⟩
      ⟨strBytes "cpu.load", [(strBytes "a", [strBytes "1"]), (strBytes "b", [strBytes "2"])]⟩
      (by decide) rfl (by decide) (by decide) (by decide) (by decide)⟩

/-- C7: a tag name occurring several times in one identifier's query
string keeps all its values in occurrence order, and only the first
occurrence's value is used: it is the head of the entry's value list,
it is the value formatted into the tag blob when the tag is generic,
and it is the value paired with the dedicated column when the tag is
routed. -/
theorem first_occurrence_value (raw : List Nat) (m : ParsedURL) (k : List Nat)
    (vs : List (List Nat)) (h63 : 63 ∈ raw) (hm : urlParse raw = some m)
    (hk : (k, vs) ∈ m.query) :
    vs = collectQueryValues raw k ∧
      vs.headI = (collectQueryValues raw k).headI ∧
      (∀ (c : TaggedConfig) (r : Record) (version : Nat) (row : OutputRow),
        row ∈ buildRows c r m version → assocGet c.routeTags k = none →
        fmtTag k (collectQueryValues raw k).headI ∈ row.tagBlob) ∧
      ∀ (c : TaggedConfig) (col : List Nat), assocGet c.routeTags k = some col →
        (col, (collectQueryValues raw k).headI) ∈ routPairsQ c m.query := by
  have hq := urlParse_some_query h63 hm
  have hcoll : vs = collectQueryValues raw k := parseQuery_mem_collect (hq ▸ hk)
  refine ⟨hcoll, by rw [hcoll], ?_, ?_⟩
  · intro c r version row hrow hgen
    rw [buildRows_eq] at hrow
    obtain ⟨t, ht, rfl⟩ := List.mem_map.mp hrow
    refine List.mem_cons_of_mem _ ?_
    have hke : (k, vs) ∈ genEntriesQ c m.query := by
      rw [genEntriesQ, List.mem_filter]
      exact ⟨hk, by simp [hgen]⟩
    have hmem := List.mem_map_of_mem fmtEntry hke
    rw [← hcoll]
    exact hmem
  · intro c col hcol
    rw [routPairsQ, List.mem_filterMap]
    refine ⟨(k, vs), hk, ?_⟩
    rw [hcol, ← hcoll]
    rfl

theorem first_occurrence_value_witness :
    urlParse (strBytes "app.requests?env=prod&env=staging") =
        some ⟨strBytes "app.requests",
          [(strBytes "env", [strBytes "prod", strBytes "staging"])]⟩ ∧
      (collectQueryValues (strBytes "app.requests?env=prod&env=staging")
          (strBytes "env")).headI = strBytes "prod" ∧
      ([strBytes "prod", strBytes "staging"] =
          collectQueryValues (strBytes "app.requests?env=prod&env=staging")
            (strBytes "env") ∧
        [strBytes "prod", strBytes "staging"].headI =
          (collectQueryValues (strBytes "app.requests?env=prod&env=staging")
            (strBytes "env")).headI ∧
        (∀ (c : TaggedConfig) (r : Record) (version : Nat) (row : OutputRow),
          row ∈ buildRows c r
              ⟨strBytes "app.requests",
                [(strBytes "env", [strBytes "prod", strBytes "staging"])]⟩ version →
          assocGet c.routeTags (strBytes "env") = none →
          fmtTag (strBytes "env")
              (collectQueryValues (strBytes "app.requests?env=prod&env=staging")
                (strBytes "env")).headI ∈ row.tagBlob) ∧
        ∀ (c : TaggedConfig) (col : List Nat),
          assocGet c.routeTags (strBytes "env") = some col →
          (col, (collectQueryValues (strBytes "app.requests?env=prod&env=staging")
            (strBytes "env")).headI) ∈
            routPairsQ c [(strBytes "env", [strBytes "prod", strBytes "staging"])]) :=
  ⟨by decide, by decide,
    first_occurrence_value (strBytes "app.requests?env=prod&env=staging")
      ⟨strBytes "app.requests", [(strBytes "env", [strBytes "prod", strBytes "staging"])]⟩
      (strBytes "env") [strBytes "prod", strBytes "staging"]
      (by decide) (by decide) (by decide)⟩

end CarbonTagged
